import Mathlib

/-!
Verification of the input-remapper core against its specification.

The definitions below are a shallow embedding of the Python sources:
  src/inputremapper/input_event.py
  src/inputremapper/configs/preset.py
  src/inputremapper/injection/mapping_handlers/mapping_handler.py
Python integers are modelled as Int, Python lists as List, the Preset's
dict as an insertion-ordered association list whose key comparison is the
comparison Python performs (tuple equality built on InputEvent.__eq__).
Code of the repository that is not under src/ (event_combination.py,
configs/mapping.py) is modelled from the specification and marked as such.
-/

/-- Auxiliary action tags an InputEvent can carry through the pipeline
(input_event.py, class EventActions). -/
inductive EventActions where
  | as_key
  | recenter
  | none
deriving DecidableEq, Repr

/-- Value of evdev.ecodes.EV_KEY, the native type of discrete key events. -/
def EV_KEY : Int := 1

/-- The event value used by input-remapper
(input_event.py, frozen dataclass InputEvent). -/
structure InputEvent where
  sec : Int
  usec : Int
  type : Int
  code : Int
  value : Int
  action : EventActions
deriving DecidableEq, Repr

/-- input_event.py, property event_tuple: (type, code, value). -/
def InputEvent.event_tuple (e : InputEvent) : Int × Int × Int :=
  (e.type, e.code, e.value)

/-- input_event.py, InputEvent.__eq__ restricted to two InputEvents:
self.event_tuple == (other.type, other.code, other.value). -/
def InputEvent.eqPy (a b : InputEvent) : Bool :=
  decide (a.event_tuple = b.event_tuple)

/-- input_event.py, InputEvent.__hash__: hash((self.type, self.code,
self.value)).  Python's hash of the triple is modelled by the triple
itself; only which fields the hash reads matters to the claims. -/
def InputEvent.hashPy (e : InputEvent) : Int × Int × Int :=
  (e.type, e.code, e.value)

/-- input_event.py, property is_key_event:
self.type == EV_KEY or self.action == EventActions.as_key. -/
def InputEvent.is_key_event (e : InputEvent) : Bool :=
  decide (e.type = EV_KEY ∨ e.action = EventActions.as_key)

/-- input_event.py, InputEvent.modify.  Each numeric parameter defaults to
None in the source, modelled as Option Int with none for "not given"; the
action parameter defaults to EventActions.none and is kept exactly when
the caller passes EventActions.none, as in the source
(action if action is not EventActions.none else self.action). -/
def InputEvent.modify (e : InputEvent)
    (sec usec type code value : Option Int) (action : EventActions) :
    InputEvent :=
  { sec := sec.getD e.sec
    usec := usec.getD e.usec
    type := type.getD e.type
    code := code.getD e.code
    value := value.getD e.value
    action := if action = EventActions.none then e.action else action }

/-- Modelled from the spec: event_combination.py is not under src/.
Spec section 3: an EventCombination is an "ordered ... sequence of
InputEvents treated as one logical trigger". -/
abbrev EventCombination := List InputEvent

/-- The (type, code, value) views of a combination's events.  Python's
tuple equality on EventCombinations is elementwise InputEvent.__eq__,
hence equality of these lists. -/
def toTuples (C : EventCombination) : List (Int × Int × Int) :=
  C.map InputEvent.event_tuple

/-- Equality of EventCombinations as Python's == (and hence dict key
identity, since __hash__ also reads only the event tuples) computes it. -/
def combEq (c d : EventCombination) : Bool :=
  decide (toTuples c = toTuples d)

/-- Modelled from the spec: EventCombination.get_permutations
(event_combination.py is not under src/).  Spec section 3: "Must be able
to enumerate all permutations of its constituent events". -/
def get_permutations (C : EventCombination) : List EventCombination :=
  C.permutations'

/-- Modelled from the spec: configs/mapping.py is not under src/.
Spec section 3: a Mapping is "{event_combination, output spec, validity}"
with a rename-callback hook.  The output spec is abstracted to one field
and pydantic schema validity to a stored flag; the callback never takes
part in pydantic equality and is owned by the container, so it is not part
of the value. -/
structure Mapping where
  event_combination : EventCombination
  output : String
  valid : Bool
deriving DecidableEq, Repr

/-- Mapping.is_valid(), abstracted per the structure's doc comment. -/
def Mapping.is_valid (m : Mapping) : Bool :=
  m.valid

/-- Python == on two Mappings: pydantic compares the fields, where the
combination field again compares by tuple equality. -/
def mappingEqPy (a b : Mapping) : Bool :=
  combEq a.event_combination b.event_combination
    && a.output == b.output && a.valid == b.valid

/-- The Preset's dict EventCombination -> Mapping, as an insertion-ordered
association list; all key operations use combEq, as CPython's dict uses
__hash__/__eq__ of the key tuples. -/
abbrev MappingDict := List (EventCombination × Mapping)

/-- Python: key in dict. -/
def memC (l : MappingDict) (k : EventCombination) : Bool :=
  l.any (fun kv => combEq kv.1 k)

/-- Python: dict.get(key) (None when absent). -/
def lookupC (l : MappingDict) (k : EventCombination) : Option Mapping :=
  (l.find? (fun kv => combEq kv.1 k)).map Prod.snd

/-- Python: dict.pop(key) with the KeyError case handled by the caller;
removes the entry whose key equals k, if any. -/
def popC : MappingDict → EventCombination → MappingDict
  | [], _ => []
  | kv :: rest, k => if combEq kv.1 k then rest else kv :: popC rest k

/-- Python: dict[key] = value; replaces in place when the key is present,
appends otherwise (CPython keeps the original key object and position). -/
def dictInsert : MappingDict → EventCombination → Mapping → MappingDict
  | [], k, v => [(k, v)]
  | kv :: rest, k, v =>
    if combEq kv.1 k then (kv.1, v) :: rest else kv :: dictInsert rest k v

/-- Python: dict == dict (equal size, every key of the left dict present
on the right with an equal value). -/
def dictEqPy (l1 l2 : MappingDict) : Bool :=
  l1.length == l2.length
    && l1.all (fun kv =>
        match l2.find? (fun kv2 => combEq kv2.1 kv.1) with
        | some kv2 => mappingEqPy kv.2 kv2.2
        | Option.none => false)

/-- Boolean pairwise check used to state dict well-formedness executably. -/
def pairwiseB (R : α → α → Bool) : List α → Bool
  | [] => true
  | x :: xs => xs.all (R x) && pairwiseB R xs

/-- Well-formedness of the dict model: no two entries share a key class. -/
def dictWFB (l : MappingDict) : Bool :=
  pairwiseB (fun a b => !(combEq a.1 b.1)) l

/-- Decides whether two tuple lists are rearrangements of one another;
executable counterpart of List.Perm used in invariants. -/
def eraseTup : List (Int × Int × Int) → (Int × Int × Int) →
    List (Int × Int × Int)
  | [], _ => []
  | y :: ys, x => if y = x then ys else y :: eraseTup ys x

/-- Executable permutation test on tuple lists. -/
def isPermTup : List (Int × Int × Int) → List (Int × Int × Int) → Bool
  | [], l2 => l2.isEmpty
  | x :: xs, l2 => decide (x ∈ l2) && isPermTup xs (eraseTup l2 x)

/-- Executable "same mapping trigger" test: the two combinations' tuple
lists are permutations of each other (spec section 3 invariant). -/
def tuplesPermBEq (c d : EventCombination) : Bool :=
  isPermTup (toTuples c) (toTuples d)

/-- The preset invariant from spec section 3: "a Preset never holds two
Mappings whose combinations are permutations of each other", stated on
the mapping index. -/
def presetInvB (l : MappingDict) : Bool :=
  pairwiseB (fun a b => !(tuplesPermBEq a.1 b.1)) l

/-- preset.py, function common_data: for x in list1: for y in list2:
if x == y: common.append(x). -/
def common_data : List EventCombination → List EventCombination →
    List EventCombination
  | [], _ => []
  | x :: xs, l2 =>
    (l2.filter (fun y => combEq x y)).map (fun _ => x) ++ common_data xs l2

/-- The condition under which Preset.save skips a mapping whose
combination is an EventCombination (preset.py lines 160-174): the mapping
is invalid and common_data of its permutations with all stored
combinations has more than one element.  The isinstance branch is dead in
this model because event_combination is typed. -/
def saveSkip (combos : List EventCombination) (m : Mapping) : Bool :=
  !m.is_valid
    && decide
      (1 < (common_data (get_permutations m.event_combination) combos).length)

/-- Number of stored combinations matching some permutation of C; the
quantity claim C5 speaks about. -/
def storedMatchCount (combos : List EventCombination)
    (C : EventCombination) : Nat :=
  (combos.filter (fun K => (get_permutations C).any (fun P => combEq P K))).length

/-- Errors raised by the Preset operations (KeyError sites). -/
inductive PresetErr where
  | duplicateKey
  | popMissing
deriving DecidableEq, Repr

/-- preset.py, class Preset: the mapping index, the snapshot of the last
persisted state, and the optional path. -/
structure Preset where
  mappings : MappingDict
  saved_mappings : MappingDict
  path : Option String
deriving DecidableEq, Repr

/-- preset.py, Preset.has_unsaved_changes:
self._mappings != self._saved_mappings. -/
def Preset.has_unsaved_changes (p : Preset) : Bool :=
  !(dictEqPy p.mappings p.saved_mappings)

/-- preset.py, Preset.remove: resolve the combination to the first stored
permutation, then pop; a KeyError from pop is caught and ignored. -/
def Preset.remove (p : Preset) (C : EventCombination) : Preset :=
  let key := ((get_permutations C).find? (fun P => memC p.mappings P)).getD C
  if memC p.mappings key then
    { p with mappings := popC p.mappings key }
  else
    p

/-- preset.py, Preset.add: raise KeyError if any permutation of the
mapping's combination is already a key (before any mutation), else attach
the rename callback and insert keyed by the combination.  The callback
attachment has no observable effect on the modelled state. -/
def Preset.add (p : Preset) (m : Mapping) : Except PresetErr Preset :=
  if (get_permutations m.event_combination).any (fun P => memC p.mappings P)
  then
    Except.error PresetErr.duplicateKey
  else
    Except.ok
      { p with mappings := dictInsert p.mappings m.event_combination m }

/-- preset.py, Preset.get_mapping: None for a falsy (empty) combination,
else the first stored permutation's Mapping, else None. -/
def Preset.get_mapping (p : Preset) (C : EventCombination) : Option Mapping :=
  if C.isEmpty then
    Option.none
  else
    (get_permutations C).findSome? (fun P => lookupC p.mappings P)

/-- preset.py, Preset._combination_changed_callback: raise KeyError when a
permutation of the new combination is a stored key other than old
(before any mutation); then self._mappings[new] = self._mappings.pop(old),
where pop raises KeyError if old is absent. -/
def Preset.combination_changed_callback (p : Preset)
    (new old : EventCombination) : Except PresetErr Preset :=
  if (get_permutations new).any
      (fun P => memC p.mappings P && !(combEq P old)) then
    Except.error PresetErr.duplicateKey
  else
    match lookupC p.mappings old with
    | some m =>
      Except.ok { p with mappings := dictInsert (popC p.mappings old) new m }
    | Option.none => Except.error PresetErr.popMissing

/-- preset.py, Preset.save.  Returns the new state and whether the JSON
dump to self.path was performed.  touch() (paths.py, not under src/) only
creates a missing file and performs no write once the file exists, so the
dump is the disk write the claims speak about.  Without a path, or when
has_unsaved_changes is false, the method returns before dumping;
otherwise every non-skipped mapping is written and the saved snapshot is
rebuilt from exactly those mappings, keyed by their combinations. -/
def Preset.save (p : Preset) : Preset × Bool :=
  match p.path with
  | Option.none => (p, false)
  | some _ =>
    if !p.has_unsaved_changes then
      (p, false)
    else
      let combos := p.mappings.map (fun kv => kv.2.event_combination)
      let kept := p.mappings.filter (fun kv => !(saveSkip combos kv.2))
      ({ p with
          saved_mappings := kept.map (fun kv => (kv.2.event_combination, kv.2)) },
        true)

/-- Errors MappingHandler.occlude_input_event can raise:
the explicit MappingParsingError, and the ValueError Python's list.remove
raises when the element is absent. -/
inductive MappingHandlerErr where
  | mappingParsingError
  | valueError
deriving DecidableEq, Repr

/-- Python list.remove's removal step: drop the first element equal
(InputEvent.__eq__) to e. -/
def removeFirstPy : List InputEvent → InputEvent → List InputEvent
  | [], _ => []
  | x :: xs, e => if InputEvent.eqPy x e then xs else x :: removeFirstPy xs e

/-- mapping_handler.py, MappingHandler.occlude_input_event: raise
MappingParsingError when input_events is empty, else
self.input_events.remove(event), which removes the first equal element or
raises ValueError when none is equal. -/
def MappingHandler.occludeInputEvent (events : List InputEvent)
    (e : InputEvent) : Except MappingHandlerErr (List InputEvent) :=
  if events.isEmpty then
    Except.error MappingHandlerErr.mappingParsingError
  else if events.any (fun x => InputEvent.eqPy x e) then
    Except.ok (removeFirstPy events e)
  else
    Except.error MappingHandlerErr.valueError

/-- mapping_handler.py, MappingHandler.__init__ lines 155-162: every event
of the combination with nonzero value is replaced by
event.modify(action=EventActions.as_key) before being stored in
input_events. -/
def MappingHandler.initInputEvents (combination : EventCombination) :
    List InputEvent :=
  combination.map (fun event =>
    if event.value ≠ 0 then
      event.modify Option.none Option.none Option.none Option.none
        Option.none EventActions.as_key
    else
      event)

/-- Default InputEvent used by positional getD statements; its value is 0
so out-of-range positions are vacuous for value-nonzero properties. -/
def dfltEv : InputEvent := ⟨0, 0, 0, 0, 0, EventActions.none⟩

/-- Sample event: KEY_A down. -/
def evA : InputEvent := ⟨0, 0, 1, 30, 1, EventActions.none⟩

/-- Sample event: KEY_S down. -/
def evB : InputEvent := ⟨0, 0, 1, 31, 1, EventActions.none⟩

/-- Sample event with value 0 (a release). -/
def evUp : InputEvent := ⟨0, 0, 1, 30, 0, EventActions.none⟩

/-- Sample mapping on the chord evA+evB. -/
def mW : Mapping := ⟨[evA, evB], "a", true⟩

/-- Sample invalid mapping whose combination repeats one event. -/
def mDup : Mapping := ⟨[evA, evA], "", false⟩

/-- Sample preset holding mW keyed by its combination. -/
def pW : Preset := ⟨[([evA, evB], mW)], [], Option.none⟩

/-- Sample preset holding only the duplicated-combination mapping, with a
path set and nothing saved yet. -/
def pDup : Preset := ⟨[([evA, evA], mDup)], [], some "preset.json"⟩

/-- Sample preset like pW but with a path set. -/
def pWS : Preset := ⟨[([evA, evB], mW)], [], some "preset.json"⟩

/-- Specification of removeFirstPy: when some element equals e, the list
splits around the first equal element and exactly that one is removed. -/
theorem removeFirstPy_decomp (events : List InputEvent) (e : InputEvent)
    (h : events.any (fun x => InputEvent.eqPy x e) = true) :
    ∃ pre x post,
      events = pre ++ x :: post
      ∧ InputEvent.eqPy x e = true
      ∧ pre.all (fun y => !(InputEvent.eqPy y e)) = true
      ∧ removeFirstPy events e = pre ++ post := by
  induction events with
  | nil => simp at h
  | cons a l ih =>
    by_cases ha : InputEvent.eqPy a e = true
    · exact ⟨[], a, l, by simp, ha, by simp, by simp [removeFirstPy, ha]⟩
    · have hl : l.any (fun x => InputEvent.eqPy x e) = true := by
        simp only [List.any_cons, Bool.or_eq_true] at h
        exact h.resolve_left ha
      obtain ⟨pre, x, post, hsplit, hx, hpre, hrem⟩ := ih hl
      refine ⟨a :: pre, x, post, by simp [hsplit], hx, ?_, ?_⟩
      · simp [hpre, ha]
      · simp [removeFirstPy, ha, hrem]

/-- C8: two InputEvents are Python-equal iff their (type, code, value)
triples agree, the hash reads only that triple, and neither the
timestamp (sec/usec) nor the action tag takes part in equality or hash. -/
theorem c8_identity_ignores_time_and_action (a b : InputEvent) :
    (InputEvent.eqPy a b = true ↔ a.event_tuple = b.event_tuple)
    ∧ (a.event_tuple = b.event_tuple →
        InputEvent.hashPy a = InputEvent.hashPy b)
    ∧ (∀ s1 u1 act1 s2 u2 act2,
        InputEvent.eqPy ⟨s1, u1, a.type, a.code, a.value, act1⟩
            ⟨s2, u2, a.type, a.code, a.value, act2⟩ = true
        ∧ InputEvent.hashPy ⟨s1, u1, a.type, a.code, a.value, act1⟩
            = InputEvent.hashPy a) := by
  refine ⟨by simp [InputEvent.eqPy], ?_, ?_⟩
  · intro h
    simp only [InputEvent.event_tuple, Prod.mk.injEq] at h
    simp [InputEvent.hashPy, h.1, h.2.1, h.2.2]
  · intro s1 u1 act1 s2 u2 act2
    exact ⟨by simp [InputEvent.eqPy, InputEvent.event_tuple],
      by simp [InputEvent.hashPy]⟩

/-- Witness for C8 at concrete events differing only in time and action. -/
theorem c8_witness :
    InputEvent.hashPy evA
      = InputEvent.hashPy ⟨5, 6, 1, 30, 1, EventActions.as_key⟩ :=
  (c8_identity_ignores_time_and_action evA
    ⟨5, 6, 1, 30, 1, EventActions.as_key⟩).2.1 (by decide)

/-- C10: modify copies every field that is not overridden; because
EventActions.none is the "not given" sentinel, passing
action=EventActions.none keeps the old action, so modify can never reset
the action tag to none. -/
theorem c10_modify_preserves_fields (e : InputEvent)
    (s u t c v : Option Int) (a : EventActions) :
    (s = Option.none → (e.modify s u t c v a).sec = e.sec)
    ∧ (u = Option.none → (e.modify s u t c v a).usec = e.usec)
    ∧ (t = Option.none → (e.modify s u t c v a).type = e.type)
    ∧ (c = Option.none → (e.modify s u t c v a).code = e.code)
    ∧ (v = Option.none → (e.modify s u t c v a).value = e.value)
    ∧ ((e.modify s u t c v EventActions.none).action = e.action)
    ∧ ((e.modify s u t c v a).action = EventActions.none →
        e.action = EventActions.none) := by
  refine ⟨fun h => ?_, fun h => ?_, fun h => ?_, fun h => ?_, fun h => ?_,
    ?_, fun h => ?_⟩ <;>
    simp_all [InputEvent.modify]
  by_cases ha : a = EventActions.none
  · simpa [ha] using h
  · simp [ha] at h

/-- Witness for C10 at a concrete event and override set. -/
theorem c10_witness :
    (evA.modify Option.none Option.none Option.none Option.none
      (some 2) EventActions.as_key).sec = evA.sec :=
  (c10_modify_preserves_fields evA Option.none Option.none Option.none
    Option.none (some 2) EventActions.as_key).1 rfl

/-- C9: MappingHandler.__init__ stores the combination with every
nonzero-value event tagged as_key (hence a key event), keeps zero-value
events unchanged, and is_key_event holds exactly for native EV_KEY type
or an as_key action tag. -/
theorem c9_init_normalizes_combination (C : EventCombination) :
    (MappingHandler.initInputEvents C).length = C.length
    ∧ (∀ e ∈ MappingHandler.initInputEvents C, e.value ≠ 0 →
        e.action = EventActions.as_key ∧ e.is_key_event = true)
    ∧ (∀ i : Nat, (C.getD i dfltEv).value = 0 →
        (MappingHandler.initInputEvents C).getD i dfltEv = C.getD i dfltEv)
    ∧ (∀ e : InputEvent, e.is_key_event = true ↔
        (e.type = EV_KEY ∨ e.action = EventActions.as_key)) := by
  refine ⟨by simp [MappingHandler.initInputEvents], ?_, ?_, ?_⟩
  · intro e he hv
    simp only [MappingHandler.initInputEvents, List.mem_map] at he
    obtain ⟨x, _, rfl⟩ := he
    by_cases hx : x.value = 0
    · simp [hx] at hv
    · simp [hx, InputEvent.modify, InputEvent.is_key_event]
  · intro i
    induction C generalizing i with
    | nil => simp [MappingHandler.initInputEvents]
    | cons x xs ih =>
      cases i with
      | zero =>
        intro h
        simp only [List.getD_cons_zero] at h
        simp [MappingHandler.initInputEvents, h]
      | succ n =>
        intro h
        simp only [List.getD_cons_succ] at h ⊢
        simpa [MappingHandler.initInputEvents] using ih n h
  · intro e
    simp [InputEvent.is_key_event]

/-- Witness for C9 at a concrete combination with one press and one
release event. -/
theorem c9_witness :
    (MappingHandler.initInputEvents [evA, evUp]).getD 1 dfltEv
      = [evA, evUp].getD 1 dfltEv :=
  (c9_init_normalizes_combination [evA, evUp]).2.2.1 1 (by decide)

/-- Counterexample for C1: occluding an event that is not watched, while
the watch list is nonempty, raises ValueError from list.remove, not
MappingParsingError. -/
theorem c1_counterexample :
    MappingHandler.occludeInputEvent [evA] evB
        = Except.error MappingHandlerErr.valueError
    ∧ MappingHandlerErr.valueError ≠ MappingHandlerErr.mappingParsingError :=
  ⟨rfl, by decide⟩

/-- C1 amended: occlude_input_event raises MappingParsingError exactly
when the watched list is empty; on a nonempty list it raises ValueError
when the event is not watched, and otherwise removes exactly the first
occurrence equal to the event. -/
theorem c1_occlude_amended (events : List InputEvent) (e : InputEvent) :
    (events = [] →
      MappingHandler.occludeInputEvent events e
        = Except.error MappingHandlerErr.mappingParsingError)
    ∧ (events ≠ [] → events.any (fun x => InputEvent.eqPy x e) = false →
      MappingHandler.occludeInputEvent events e
        = Except.error MappingHandlerErr.valueError)
    ∧ (events.any (fun x => InputEvent.eqPy x e) = true →
      ∃ pre x post,
        events = pre ++ x :: post
        ∧ InputEvent.eqPy x e = true
        ∧ pre.all (fun y => !(InputEvent.eqPy y e)) = true
        ∧ MappingHandler.occludeInputEvent events e
            = Except.ok (pre ++ post)) := by
  refine ⟨fun h => ?_, fun h1 h2 => ?_, fun h => ?_⟩
  · subst h; rfl
  · simp [MappingHandler.occludeInputEvent, h1, h2]
  · have hne : events.isEmpty = false := by
      cases events with
      | nil => simp at h
      | cons a l => rfl
    obtain ⟨pre, x, post, hsplit, hx, hpre, hrem⟩ :=
      removeFirstPy_decomp events e h
    exact ⟨pre, x, post, hsplit, hx, hpre,
      by simp [MappingHandler.occludeInputEvent, hne, h, hrem]⟩

/-- Witness for C1 amended: occluding a watched event removes exactly its
first occurrence. -/
theorem c1_witness :
    ∃ pre x post,
      ([evA, evB] : List InputEvent) = pre ++ x :: post
      ∧ InputEvent.eqPy x evB = true
      ∧ pre.all (fun y => !(InputEvent.eqPy y evB)) = true
      ∧ MappingHandler.occludeInputEvent [evA, evB] evB
          = Except.ok (pre ++ post) :=
  (c1_occlude_amended [evA, evB] evB).2.2 (by decide)

/-- combEq holds exactly when the tuple views agree. -/
theorem combEq_iff {c d : EventCombination} :
    combEq c d = true ↔ toTuples c = toTuples d := by
  simp [combEq]

/-- combEq is reflexive. -/
theorem combEq_refl (c : EventCombination) : combEq c c = true := by
  simp [combEq]

/-- combEq is symmetric. -/
theorem combEq_symm {c d : EventCombination} (h : combEq c d = true) :
    combEq d c = true := by
  rw [combEq_iff] at *
  exact h.symm

/-- combEq is transitive. -/
theorem combEq_trans {a b c : EventCombination} (h1 : combEq a b = true)
    (h2 : combEq b c = true) : combEq a c = true := by
  rw [combEq_iff] at *
  exact h1.trans h2

/-- Python Mapping equality is reflexive. -/
theorem mappingEqPy_refl (m : Mapping) : mappingEqPy m m = true := by
  simp [mappingEqPy, combEq_refl]

/-- pairwiseB computes List.Pairwise. -/
theorem pairwiseB_iff {R : α → α → Bool} {l : List α} :
    pairwiseB R l = true ↔ l.Pairwise (fun a b => R a b = true) := by
  induction l with
  | nil => simp [pairwiseB]
  | cons x xs ih => simp [pairwiseB, List.pairwise_cons, ih, and_comm]


/-- Unfolding lemma: lookup on a cons cell of the dict model. -/
theorem lookupC_cons (kv : EventCombination × Mapping) (l : MappingDict)
    (k : EventCombination) :
    lookupC (kv :: l) k
      = if combEq kv.1 k then some kv.2 else lookupC l k := by
  by_cases h : combEq kv.1 k = true <;> simp [lookupC, List.find?_cons, h]

/-- Unfolding lemma: membership on a cons cell of the dict model. -/
theorem memC_cons (kv : EventCombination × Mapping) (l : MappingDict)
    (k : EventCombination) :
    memC (kv :: l) k = (combEq kv.1 k || memC l k) := by
  simp [memC]

/-- Unfolding lemma: pop on a cons cell of the dict model. -/
theorem popC_cons (kv : EventCombination × Mapping) (l : MappingDict)
    (k : EventCombination) :
    popC (kv :: l) k = if combEq kv.1 k then l else kv :: popC l k := rfl

/-- Unfolding lemma: insert on a cons cell of the dict model. -/
theorem dictInsert_cons (kv : EventCombination × Mapping) (l : MappingDict)
    (k : EventCombination) (v : Mapping) :
    dictInsert (kv :: l) k v
      = if combEq kv.1 k then (kv.1, v) :: l else kv :: dictInsert l k v := rfl

/-- Unfolding lemma: dict well-formedness on a cons cell. -/
theorem dictWFB_cons {kv : EventCombination × Mapping} {l : MappingDict} :
    dictWFB (kv :: l) = true ↔
      (∀ kv2 ∈ l, combEq kv.1 kv2.1 = false) ∧ dictWFB l = true := by
  simp [dictWFB, pairwiseB, List.all_eq_true]

/-- A list that contains x is a permutation of x consed onto the list
with the first occurrence of x erased. -/
theorem perm_cons_eraseTup {x : Int × Int × Int}
    {l : List (Int × Int × Int)} (h : x ∈ l) :
    List.Perm l (x :: eraseTup l x) := by
  induction l with
  | nil => simp at h
  | cons y ys ih =>
    by_cases hyx : y = x
    · subst hyx
      simp only [eraseTup, if_pos rfl]
      exact List.Perm.refl _
    · have hx : x ∈ ys := by
        rcases List.mem_cons.mp h with h1 | h2
        · exact absurd h1.symm hyx
        · exact h2
      have h1 : List.Perm (y :: ys) (y :: x :: eraseTup ys x) :=
        (ih hx).cons y
      have h2 : List.Perm (y :: x :: eraseTup ys x)
          (x :: y :: eraseTup ys x) := List.Perm.swap x y _
      have h4 : eraseTup (y :: ys) x = y :: eraseTup ys x := by
        simp [eraseTup, hyx]
      rw [h4]
      exact h1.trans h2

/-- isPermTup decides List.Perm on tuple lists. -/
theorem isPermTup_iff {l1 l2 : List (Int × Int × Int)} :
    isPermTup l1 l2 = true ↔ List.Perm l1 l2 := by
  induction l1 generalizing l2 with
  | nil =>
    simp only [isPermTup, List.isEmpty_iff]
    constructor
    · intro h
      subst h
      exact List.Perm.refl []
    · intro h
      exact h.symm.eq_nil
  | cons x xs ih =>
    simp only [isPermTup, Bool.and_eq_true, decide_eq_true_eq, ih]
    constructor
    · intro hpair
      have h1 : List.Perm (x :: xs) (x :: eraseTup l2 x) :=
        hpair.2.cons x
      exact h1.trans (perm_cons_eraseTup hpair.1).symm
    · intro h
      have hmem : x ∈ l2 := h.subset (List.mem_cons_self x xs)
      refine ⟨hmem, ?_⟩
      have h2 : List.Perm (x :: xs) (x :: eraseTup l2 x) :=
        h.trans (perm_cons_eraseTup hmem)
      exact h2.cons_inv

/-- tuplesPermBEq decides the "same mapping trigger" relation. -/
theorem tuplesPermBEq_iff {c d : EventCombination} :
    tuplesPermBEq c d = true ↔ List.Perm (toTuples c) (toTuples d) := by
  simp [tuplesPermBEq, isPermTup_iff]

/-- A permutation of combinations is a permutation of their tuples. -/
theorem toTuples_perm {c d : EventCombination} (h : List.Perm c d) :
    List.Perm (toTuples c) (toTuples d) :=
  h.map InputEvent.event_tuple

/-- Membership in the modelled get_permutations is List.Perm. -/
theorem mem_get_permutations {P C : EventCombination} :
    P ∈ get_permutations C ↔ List.Perm P C := by
  simp [get_permutations, List.mem_permutations']

/-- A combination is one of its own permutations. -/
theorem self_mem_get_permutations (C : EventCombination) :
    C ∈ get_permutations C :=
  mem_get_permutations.mpr (List.Perm.refl C)

/-- The executable preset invariant yields the Pairwise statement. -/
theorem presetInvB_pairwise {l : MappingDict} (h : presetInvB l = true) :
    l.Pairwise (fun a b => ¬ List.Perm (toTuples a.1) (toTuples b.1)) := by
  have h2 := pairwiseB_iff.mp h
  refine h2.imp ?_
  intro a b hab hperm
  rw [tuplesPermBEq_iff.mpr hperm] at hab
  simp at hab

/-- Under the preset invariant, two stored entries whose keys are
permutation-equivalent are the same entry. -/
theorem invariant_entries_eq {l : MappingDict}
    (h : l.Pairwise (fun a b => ¬ List.Perm (toTuples a.1) (toTuples b.1)))
    {a b : EventCombination × Mapping} (ha : a ∈ l) (hb : b ∈ l)
    (hperm : List.Perm (toTuples a.1) (toTuples b.1)) : a = b := by
  induction l with
  | nil => simp at ha
  | cons hd tl ih =>
    have hhd := List.pairwise_cons.mp h
    rcases List.mem_cons.mp ha with rfl | hatl
    · rcases List.mem_cons.mp hb with rfl | hbtl
      · rfl
      · exact absurd hperm (hhd.1 b hbtl)
    · rcases List.mem_cons.mp hb with rfl | hbtl
      · exact absurd hperm.symm (hhd.1 a hatl)
      · exact ih hhd.2 hatl hbtl

/-- Eliminate a successful lookup into a matching entry. -/
theorem lookupC_eq_some_elim {l : MappingDict} {k : EventCombination}
    {v : Mapping} (h : lookupC l k = some v) :
    ∃ kv, kv ∈ l ∧ combEq kv.1 k = true ∧ kv.2 = v := by
  simp only [lookupC, Option.map_eq_some'] at h
  obtain ⟨kv, hfind, hsnd⟩ := h
  refine ⟨kv, List.mem_of_find?_eq_some hfind, ?_, hsnd⟩
  have hp := List.find?_some hfind
  simpa using hp

/-- Lookup succeeds exactly when membership holds. -/
theorem lookupC_isSome_eq_memC (l : MappingDict) (k : EventCombination) :
    (lookupC l k).isSome = memC l k := by
  induction l with
  | nil => rfl
  | cons kv rest ih =>
    rw [lookupC_cons, memC_cons]
    by_cases h : combEq kv.1 k = true
    · simp [h]
    · rw [Bool.not_eq_true] at h
      simp [h, ih]

/-- findSome? returns m when some element succeeds and every success
yields m. -/
theorem findSome?_eq_some_all {α β : Type} {l : List α} {f : α → Option β}
    {m : β} (hex : ∃ x ∈ l, (f x).isSome = true)
    (hall : ∀ x ∈ l, ∀ v, f x = some v → v = m) :
    l.findSome? f = some m := by
  induction l with
  | nil => simp at hex
  | cons a l ih =>
    cases hfa : f a with
    | none =>
      simp only [List.findSome?_cons, hfa]
      obtain ⟨x, hx, hsome⟩ := hex
      rcases List.mem_cons.mp hx with rfl | hxl
      · rw [hfa] at hsome
        simp at hsome
      · exact ih ⟨x, hxl, hsome⟩ (fun y hy v hv => hall y (by simp [hy]) v hv)
    | some v =>
      simp only [List.findSome?_cons, hfa]
      rw [hall a (by simp) v hfa]

/-- findSome? returns none when every element fails. -/
theorem findSome?_eq_none_all {α β : Type} {l : List α} {f : α → Option β}
    (h : ∀ x ∈ l, f x = Option.none) : l.findSome? f = Option.none := by
  induction l with
  | nil => rfl
  | cons a l ih =>
    have ha := h a (by simp)
    simp only [List.findSome?_cons, ha]
    exact ih (fun y hy => h y (by simp [hy]))

/-- pop splits the dict around the first matching entry. -/
theorem popC_spec {l : MappingDict} {k : EventCombination}
    (h : memC l k = true) :
    ∃ pre kv post,
      l = pre ++ kv :: post
      ∧ combEq kv.1 k = true
      ∧ (∀ kv' ∈ pre, combEq kv'.1 k = false)
      ∧ popC l k = pre ++ post := by
  induction l with
  | nil => simp [memC] at h
  | cons hd tl ih =>
    by_cases hhd : combEq hd.1 k = true
    · exact ⟨[], hd, tl, by simp, hhd, by simp, by simp [popC, hhd]⟩
    · rw [Bool.not_eq_true] at hhd
      have htl : memC tl k = true := by
        rw [memC_cons, hhd] at h
        simpa using h
      obtain ⟨pre, kv, post, hsplit, hkv, hpre, hpop⟩ := ih htl
      refine ⟨hd :: pre, kv, post, by simp [hsplit], hkv, ?_, ?_⟩
      · intro kv' hkv'
        rcases List.mem_cons.mp hkv' with rfl | hmem
        · exact hhd
        · exact hpre kv' hmem
      · simp [popC, hhd, hpop]

/-- Popping one key class leaves lookups of other key classes alone. -/
theorem lookupC_popC_other {l : MappingDict} {k k' : EventCombination}
    (h : combEq k' k = false) :
    lookupC (popC l k) k' = lookupC l k' := by
  induction l with
  | nil => rfl
  | cons hd tl ih =>
    by_cases hhd : combEq hd.1 k = true
    · have hne : combEq hd.1 k' = false := by
        by_contra hc
        rw [Bool.not_eq_false] at hc
        have h2 : combEq k' k = true := combEq_trans (combEq_symm hc) hhd
        rw [h2] at h
        simp at h
      rw [popC_cons, if_pos hhd, lookupC_cons, if_neg (by simp [hne])]
    · rw [Bool.not_eq_true] at hhd
      rw [popC_cons, if_neg (by simp [hhd]), lookupC_cons, lookupC_cons, ih]

/-- In a well-formed dict, after popping a key its class is gone. -/
theorem lookupC_popC_self {l : MappingDict} {k : EventCombination}
    (hwf : dictWFB l = true) : lookupC (popC l k) k = Option.none := by
  induction l with
  | nil => rfl
  | cons hd tl ih =>
    obtain ⟨hhdall, hwftl⟩ := dictWFB_cons.mp hwf
    by_cases hhd : combEq hd.1 k = true
    · rw [popC_cons, if_pos hhd]
      cases hlk : lookupC tl k with
      | none => rfl
      | some v =>
        obtain ⟨kv, hkvmem, hkveq, _⟩ := lookupC_eq_some_elim hlk
        have hfalse := hhdall kv hkvmem
        have htrue : combEq hd.1 kv.1 = true :=
          combEq_trans hhd (combEq_symm hkveq)
        rw [htrue] at hfalse
        simp at hfalse
    · rw [Bool.not_eq_true] at hhd
      rw [popC_cons, if_neg (by simp [hhd]), lookupC_cons,
        if_neg (by simp [hhd])]
      exact ih hwftl

/-- Looking up any spelling of the inserted key finds the new value. -/
theorem lookupC_dictInsert_same {l : MappingDict} {k k' : EventCombination}
    (v : Mapping) (h : combEq k' k = true) :
    lookupC (dictInsert l k v) k' = some v := by
  induction l with
  | nil =>
    show lookupC [(k, v)] k' = some v
    rw [lookupC_cons, if_pos (combEq_symm h)]
  | cons kv tl ih =>
    by_cases hkv : combEq kv.1 k = true
    · rw [dictInsert_cons, if_pos hkv, lookupC_cons,
        if_pos (combEq_trans hkv (combEq_symm h))]
    · rw [Bool.not_eq_true] at hkv
      have hk' : combEq kv.1 k' = false := by
        by_contra hc
        rw [Bool.not_eq_false] at hc
        have h2 := combEq_trans hc h
        rw [h2] at hkv
        simp at hkv
      rw [dictInsert_cons, if_neg (by simp [hkv]), lookupC_cons,
        if_neg (by simp [hk']), ih]

/-- Inserting one key class leaves lookups of other key classes alone. -/
theorem lookupC_dictInsert_other {l : MappingDict} {k k' : EventCombination}
    (v : Mapping) (h : combEq k' k = false) :
    lookupC (dictInsert l k v) k' = lookupC l k' := by
  induction l with
  | nil =>
    show lookupC [(k, v)] k' = lookupC [] k'
    have hnc : ¬ (combEq (k, v).1 k' = true) := by
      intro hc
      have hc2 : combEq k' k = true := combEq_symm hc
      rw [hc2] at h
      simp at h
    rw [lookupC_cons, if_neg hnc]
  | cons kv tl ih =>
    by_cases hkv : combEq kv.1 k = true
    · have hne : combEq kv.1 k' = false := by
        by_contra hc
        rw [Bool.not_eq_false] at hc
        have h2 := combEq_trans (combEq_symm hc) hkv
        rw [h2] at h
        simp at h
      rw [dictInsert_cons, if_pos hkv, lookupC_cons, if_neg (by simp [hne]),
        lookupC_cons, if_neg (by simp [hne])]
    · rw [Bool.not_eq_true] at hkv
      rw [dictInsert_cons, if_neg (by simp [hkv]), lookupC_cons,
        lookupC_cons, ih]

/-- Inserting an absent key appends the new entry. -/
theorem dictInsert_append {l : MappingDict} {k : EventCombination}
    (v : Mapping) (h : memC l k = false) :
    dictInsert l k v = l ++ [(k, v)] := by
  induction l with
  | nil => rfl
  | cons kv tl ih =>
    rw [memC_cons] at h
    have h1 : combEq kv.1 k = false := by
      cases hc : combEq kv.1 k
      · rfl
      · rw [hc] at h
        simp at h
    have h2 : memC tl k = false := by
      rw [h1] at h
      simpa using h
    rw [dictInsert_cons, if_neg (by simp [h1]), ih h2]
    rfl

/-- C3: under the invariant that no two stored keys are permutations of
each other (spec section 3) and for nonempty combinations (the spec's
constructors reject structurally invalid input, and get_mapping treats an
empty combination as falsy), a stored combination and every permutation
of it resolve to the same stored Mapping, and a combination none of whose
permutations is stored resolves to None. -/
theorem c3_get_mapping_permutation_equiv (p : Preset)
    (hinv : presetInvB p.mappings = true) :
    (∀ C m C2, (C, m) ∈ p.mappings → C ≠ [] → List.Perm C2 C →
        Preset.get_mapping p C2 = some m
        ∧ Preset.get_mapping p C = some m)
    ∧ (∀ D : EventCombination,
        (∀ kv ∈ p.mappings, ¬ List.Perm (toTuples kv.1) (toTuples D)) →
        Preset.get_mapping p D = Option.none) := by
  have hpair := presetInvB_pairwise hinv
  constructor
  · intro C m C2 hmem hne hperm2
    have hhits : ∀ P, List.Perm (toTuples P) (toTuples C) →
        ∀ v, lookupC p.mappings P = some v → v = m := by
      intro P hP v hv
      obtain ⟨kv, hkvmem, hkveq, hkv2⟩ := lookupC_eq_some_elim hv
      have ht : toTuples kv.1 = toTuples P := combEq_iff.mp hkveq
      have hpermkv : List.Perm (toTuples kv.1) (toTuples C) := ht ▸ hP
      have hkvC : kv = (C, m) :=
        invariant_entries_eq hpair hkvmem hmem hpermkv
      rw [← hkv2, hkvC]
    have hsome : (lookupC p.mappings C).isSome = true := by
      rw [lookupC_isSome_eq_memC]
      simp only [memC, List.any_eq_true]
      exact ⟨(C, m), hmem, combEq_refl C⟩
    have main : ∀ E : EventCombination, E.isEmpty = false →
        List.Perm E C → Preset.get_mapping p E = some m := by
      intro E hEne hpermE
      have hgm : Preset.get_mapping p E
          = (get_permutations E).findSome? (fun P => lookupC p.mappings P) := by
        simp [Preset.get_mapping, hEne]
      rw [hgm]
      apply findSome?_eq_some_all
      · exact ⟨C, mem_get_permutations.mpr hpermE.symm, hsome⟩
      · intro P hPmem v hv
        have hPC : List.Perm P C :=
          (mem_get_permutations.mp hPmem).trans hpermE
        exact hhits P (toTuples_perm hPC) v hv
    have hCne : C.isEmpty = false := by
      cases C with
      | nil => exact absurd rfl hne
      | cons a l => rfl
    have hC2ne : C2.isEmpty = false := by
      cases hC2 : C2 with
      | nil =>
        rw [hC2] at hperm2
        exact absurd hperm2.symm.eq_nil hne
      | cons a l => rfl
    exact ⟨main C2 hC2ne hperm2, main C hCne (List.Perm.refl C)⟩
  · intro D hD
    cases hDe : D.isEmpty with
    | true => simp [Preset.get_mapping, hDe]
    | false =>
      have hgm : Preset.get_mapping p D
          = (get_permutations D).findSome? (fun P => lookupC p.mappings P) := by
        simp [Preset.get_mapping, hDe]
      rw [hgm]
      apply findSome?_eq_none_all
      intro P hP
      cases hv : lookupC p.mappings P with
      | none => rfl
      | some v =>
        obtain ⟨kv, hkvmem, hkveq, _⟩ := lookupC_eq_some_elim hv
        have ht : toTuples kv.1 = toTuples P := combEq_iff.mp hkveq
        have hPD : List.Perm P D := mem_get_permutations.mp hP
        exact absurd (ht ▸ toTuples_perm hPD) (hD kv hkvmem)

/-- Witness for C3: the reversed chord finds the same stored mapping. -/
theorem c3_witness :
    Preset.get_mapping pW [evB, evA] = some mW
    ∧ Preset.get_mapping pW [evA, evB] = some mW :=
  (c3_get_mapping_permutation_equiv pW (by decide)).1 [evA, evB] mW
    [evB, evA] (by decide) (by decide) (List.Perm.swap evA evB [])

/-- C4: add raises KeyError exactly when some permutation of the new
mapping's combination is already a key — the raise precedes any mutation,
so the modelled error carries the untouched state — and otherwise appends
the mapping keyed by its combination. -/
theorem c4_add_duplicate_rejected (p : Preset) (m : Mapping) :
    ((get_permutations m.event_combination).any
        (fun P => memC p.mappings P) = true →
      Preset.add p m = Except.error PresetErr.duplicateKey)
    ∧ ((get_permutations m.event_combination).any
        (fun P => memC p.mappings P) = false →
      Preset.add p m
        = Except.ok { p with
            mappings := p.mappings ++ [(m.event_combination, m)] }) := by
  constructor
  · intro h
    simp [Preset.add, h]
  · intro h
    have hmem : memC p.mappings m.event_combination = false := by
      rw [List.any_eq_false] at h
      have h2 := h m.event_combination (self_mem_get_permutations _)
      rw [Bool.not_eq_true] at h2
      exact h2
    simp [Preset.add, h, dictInsert_append m hmem]

/-- Witness for C4: adding a permutation of the stored chord fails. -/
theorem c4_witness :
    Preset.add pW ⟨[evB, evA], "x", true⟩
      = Except.error PresetErr.duplicateKey :=
  (c4_add_duplicate_rejected pW ⟨[evB, evA], "x", true⟩).1 (by decide)

/-- C7: removing a combination none of whose permutations is stored is a
no-op (the KeyError is caught), and otherwise exactly the entry keyed by
a stored permutation of it is deleted. -/
theorem c7_remove_permutation_tolerant (p : Preset) (C : EventCombination) :
    ((get_permutations C).all (fun P => !(memC p.mappings P)) = true →
      Preset.remove p C = p)
    ∧ ((get_permutations C).any (fun P => memC p.mappings P) = true →
      ∃ pre kv post,
        p.mappings = pre ++ kv :: post
        ∧ List.Perm (toTuples kv.1) (toTuples C)
        ∧ (Preset.remove p C).mappings = pre ++ post
        ∧ (Preset.remove p C).saved_mappings = p.saved_mappings
        ∧ (Preset.remove p C).path = p.path) := by
  constructor
  · intro h
    rw [List.all_eq_true] at h
    have hfind : (get_permutations C).find? (fun P => memC p.mappings P)
        = Option.none := by
      rw [List.find?_eq_none]
      intro P hP
      have h3 := h P hP
      simp at h3
      simp [h3]
    have hmemC : memC p.mappings C = false := by
      have h3 := h C (self_mem_get_permutations C)
      simpa using h3
    simp [Preset.remove, hfind, hmemC]
  · intro h
    have h2 : ((get_permutations C).find?
        (fun P => memC p.mappings P)).isSome = true := by
      rw [List.find?_isSome]
      rw [List.any_eq_true] at h
      exact h
    obtain ⟨P, hP⟩ := Option.isSome_iff_exists.mp h2
    have hPmem : memC p.mappings P = true := by
      simpa using List.find?_some hP
    have hPperm : List.Perm P C :=
      mem_get_permutations.mp (List.mem_of_find?_eq_some hP)
    obtain ⟨pre, kv, post, hsplit, hkveq, _, hpop⟩ := popC_spec hPmem
    refine ⟨pre, kv, post, hsplit, ?_, ?_, ?_, ?_⟩
    · have ht : toTuples kv.1 = toTuples P := combEq_iff.mp hkveq
      rw [ht]
      exact toTuples_perm hPperm
    · simp [Preset.remove, hP, hPmem, hpop]
    · simp [Preset.remove, hP, hPmem]
    · simp [Preset.remove, hP, hPmem]

/-- Witness for C7: removing an absent combination changes nothing. -/
theorem c7_witness : Preset.remove pW [evUp] = pW :=
  (c7_remove_permutation_tolerant pW [evUp]).1 (by decide)

/-- C6: the rename callback raises (KeyError) when some permutation of
the new combination is a stored key other than old — the raise precedes
any mutation — and otherwise re-keys the entry from old to new, leaving
every other key class untouched. -/
theorem c6_rename_collision_safe (p : Preset) (nw old : EventCombination)
    (m : Mapping) (hwf : dictWFB p.mappings = true)
    (hold : lookupC p.mappings old = some m) :
    ((get_permutations nw).any
        (fun P => memC p.mappings P && !(combEq P old)) = true →
      Preset.combination_changed_callback p nw old
        = Except.error PresetErr.duplicateKey)
    ∧ ((get_permutations nw).any
        (fun P => memC p.mappings P && !(combEq P old)) = false →
      ∃ p2, Preset.combination_changed_callback p nw old = Except.ok p2
        ∧ lookupC p2.mappings nw = some m
        ∧ (combEq old nw = false →
            lookupC p2.mappings old = Option.none)
        ∧ (∀ K, combEq K old = false → combEq K nw = false →
            lookupC p2.mappings K = lookupC p.mappings K)) := by
  constructor
  · intro h
    simp [Preset.combination_changed_callback, h]
  · intro h
    refine ⟨{ p with mappings := dictInsert (popC p.mappings old) nw m },
      ?_, ?_, ?_, ?_⟩
    · simp [Preset.combination_changed_callback, h, hold]
    · exact lookupC_dictInsert_same m (combEq_refl nw)
    · intro hdiff
      rw [lookupC_dictInsert_other m hdiff]
      exact lookupC_popC_self hwf
    · intro K hKold hKnw
      rw [lookupC_dictInsert_other m hKnw, lookupC_popC_other hKold]

/-- Witness for C6: renaming the stored chord to its own reversal
succeeds and re-keys the entry. -/
theorem c6_witness :
    ∃ p2, Preset.combination_changed_callback pW [evB, evA] [evA, evB]
        = Except.ok p2
      ∧ lookupC p2.mappings [evB, evA] = some mW
      ∧ (combEq [evA, evB] [evB, evA] = false →
          lookupC p2.mappings [evA, evB] = Option.none)
      ∧ (∀ K, combEq K [evA, evB] = false → combEq K [evB, evA] = false →
          lookupC p2.mappings K = lookupC pW.mappings K) :=
  (c6_rename_collision_safe pW [evB, evA] [evA, evB] mW (by decide)
    (by decide)).2 (by decide)

/-- The length of common_data is the pair count: for each element of the
first list, the number of equal elements of the second. -/
theorem common_data_length (l1 l2 : List EventCombination) :
    (common_data l1 l2).length
      = (l1.map (fun x => l2.countP (fun y => combEq x y))).sum := by
  induction l1 with
  | nil => simp [common_data]
  | cons x xs ih =>
    simp [common_data, ih, List.countP_eq_length_filter]

/-- countP as a sum of indicators. -/
theorem countP_indicator (l : List β) (p : β → Bool) :
    l.countP p = (l.map (fun y => if p y then 1 else 0)).sum := by
  induction l with
  | nil => simp
  | cons y ys ih =>
    by_cases h : p y = true <;>
      simp [List.countP_cons, h, ih, Nat.add_comm]

/-- Sums of pointwise sums split. -/
theorem sum_map_add (l : List β) (f g : β → Nat) :
    (l.map (fun y => f y + g y)).sum = (l.map f).sum + (l.map g).sum := by
  induction l with
  | nil => simp
  | cons y ys ih =>
    simp only [List.map_cons, List.sum_cons, ih]
    omega

/-- Double counting: summing match counts over the first list equals
summing them over the second list. -/
theorem sum_countP_comm (l1 : List α) (l2 : List β) (p : α → β → Bool) :
    (l1.map (fun x => l2.countP (p x))).sum
      = (l2.map (fun y => l1.countP (fun x => p x y))).sum := by
  induction l1 with
  | nil =>
    have hz : ∀ (l : List β), (l.map (fun _ => (0 : Nat))).sum = 0 := by
      intro l
      induction l with
      | nil => rfl
      | cons b bs ih2 => simp [ih2]
    simp [List.countP_nil, hz l2]
  | cons x xs ih =>
    simp only [List.map_cons, List.sum_cons, ih]
    have hfun : (fun y => (x :: xs).countP (fun x2 => p x2 y))
        = (fun y => xs.countP (fun x2 => p x2 y)
            + if p x y then 1 else 0) := by
      funext y
      rw [List.countP_cons]
    rw [hfun, sum_map_add, ← countP_indicator]
    omega

/-- When every term is at most one, the sum counts the positive terms. -/
theorem sum_eq_countP_of_le_one (l : List β) (f : β → Nat)
    (h : ∀ y ∈ l, f y ≤ 1) :
    (l.map f).sum = l.countP (fun y => decide (0 < f y)) := by
  induction l with
  | nil => simp
  | cons y ys ih =>
    have hy := h y (by simp)
    have hys := ih (fun z hz => h z (by simp [hz]))
    rw [List.map_cons, List.sum_cons, hys, List.countP_cons]
    cases hfy : f y with
    | zero => simp [hfy]
    | succ n =>
      have hn : n = 0 := by
        rw [hfy] at hy
        omega
      subst hn
      simp [hfy, Nat.add_comm]

/-- A predicate satisfied by at most one element of a duplicate-free list
is counted at most once. -/
theorem countP_le_one_of_unique (l : List γ) (p : γ → Bool)
    (hnd : l.Nodup)
    (h : ∀ a ∈ l, ∀ b ∈ l, p a = true → p b = true → a = b) :
    l.countP p ≤ 1 := by
  induction l with
  | nil => simp
  | cons a t ih =>
    rw [List.countP_cons]
    have hnd2 := List.nodup_cons.mp hnd
    by_cases hpa : p a = true
    · have hzero : t.countP p = 0 := by
        rw [List.countP_eq_zero]
        intro b hb hpb
        have hba := h b (by simp [hb]) a (by simp) hpb hpa
        rw [hba] at hb
        exact hnd2.1 hb
      simp [hzero, hpa]
    · rw [Bool.not_eq_true] at hpa
      have ht := ih hnd2.2
        (fun x hx y hy hpx hpy =>
          h x (by simp [hx]) y (by simp [hy]) hpx hpy)
      simp [hpa]
      omega

/-- Two rearrangements of a combination with duplicate-free tuples that
agree on tuples are equal. -/
theorem tuples_inj_on_perms {C P1 P2 : EventCombination}
    (hnd : (toTuples C).Nodup) (h1 : List.Perm P1 C)
    (h2 : List.Perm P2 C) (ht : toTuples P1 = toTuples P2) : P1 = P2 := by
  have hnd2 : (C.map InputEvent.event_tuple).Nodup := hnd
  have hinj : ∀ x ∈ C, ∀ y ∈ C,
      InputEvent.event_tuple x = InputEvent.event_tuple y → x = y :=
    fun x hx y hy hfe => List.inj_on_of_nodup_map hnd2 hx hy hfe
  have main : ∀ u v : List InputEvent, (∀ x ∈ u, x ∈ C) →
      (∀ x ∈ v, x ∈ C) →
      u.map InputEvent.event_tuple = v.map InputEvent.event_tuple →
      u = v := by
    intro u
    induction u with
    | nil =>
      intro v _ _ hmap
      cases v with
      | nil => rfl
      | cons b v2 => simp at hmap
    | cons a u2 ih =>
      intro v hu hv hmap
      cases v with
      | nil => simp at hmap
      | cons b v2 =>
        simp only [List.map_cons, List.cons.injEq] at hmap
        have hab : a = b :=
          hinj a (hu a (by simp)) b (hv b (by simp)) hmap.1
        subst hab
        rw [ih v2 (fun x hx => hu x (by simp [hx]))
          (fun x hx => hv x (by simp [hx])) hmap.2]
  exact main P1 P2 (fun x hx => h1.subset hx) (fun x hx => h2.subset hx) ht

/-- When the combination's tuples are duplicate-free, at most one
enumerated permutation equals any given stored combination. -/
theorem perms_countP_le_one {C : EventCombination}
    (hnd : (toTuples C).Nodup) (K : EventCombination) :
    (get_permutations C).countP (fun P => combEq P K) ≤ 1 := by
  have hCnd : C.Nodup := by
    have hnd2 : (C.map InputEvent.event_tuple).Nodup := hnd
    exact hnd2.of_map
  have hpermsnd : (get_permutations C).Nodup := by
    have h1 := List.nodup_permutations C hCnd
    exact ((List.permutations_perm_permutations' C).nodup_iff).mp h1
  apply countP_le_one_of_unique _ _ hpermsnd
  intro P1 hP1 P2 hP2 hp1 hp2
  have ht : toTuples P1 = toTuples P2 :=
    (combEq_iff.mp hp1).trans (combEq_iff.mp hp2).symm
  exact tuples_inj_on_perms hnd (mem_get_permutations.mp hP1)
    (mem_get_permutations.mp hP2) ht

/-- The Boolean "some positive count" agrees with any. -/
theorem decide_countP_pos_eq_any (l : List α) (p : α → Bool) :
    decide (0 < l.countP p) = l.any p := by
  cases h : l.any p with
  | false =>
    have h0 : l.countP p = 0 := by
      rw [List.countP_eq_zero]
      exact List.any_eq_false.mp h
    simp [h0]
  | true =>
    rw [List.any_eq_true] at h
    have hpos : 0 < l.countP p := List.countP_pos_iff.mpr h
    simp [hpos]

/-- countP only depends on the predicate's values on the list. -/
theorem countP_ext (l : List α) (p q : α → Bool)
    (h : ∀ a ∈ l, p a = q a) : l.countP p = l.countP q := by
  induction l with
  | nil => simp
  | cons a t ih =>
    rw [List.countP_cons, List.countP_cons, h a (by simp),
      ih (fun b hb => h b (by simp [hb]))]

/-- For a duplicate-free combination, the pair count computed by
common_data equals the number of distinct stored matches. -/
theorem common_length_eq_matchCount {C : EventCombination}
    (hnd : (toTuples C).Nodup) (combos : List EventCombination) :
    (common_data (get_permutations C) combos).length
      = storedMatchCount combos C := by
  rw [common_data_length, sum_countP_comm]
  rw [sum_eq_countP_of_le_one _ _ (fun K _ => perms_countP_le_one hnd K)]
  rw [storedMatchCount, ← List.countP_eq_length_filter]
  apply countP_ext
  intro K _
  exact decide_countP_pos_eq_any (get_permutations C) (fun P => combEq P K)

/-- Counterexample for C5: the invalid mapping on the combination
[evA, evA] is the sole occupant of its permutation class (exactly one
stored combination matches), yet save skips it, because common_data
counts (permutation, stored combination) pairs and the duplicated event
yields two equal permutations. -/
theorem c5_counterexample :
    Mapping.is_valid mDup = false
    ∧ saveSkip [[evA, evA]] mDup = true
    ∧ storedMatchCount [[evA, evA]] mDup.event_combination = 1 := by
  decide

/-- C5 amended: an invalid mapping is skipped exactly when common_data
counts more than one (permutation, stored combination) pair; for a
mapping whose combination has no duplicate events this coincides with the
claim's reading "more than one stored combination matches some
permutation", so such a sole occupant is still written.  (A combination
that is not an EventCombination is not representable here: under the
validated Mapping model the isinstance branch of save is dead.) -/
theorem c5_save_skip_condition (combos : List EventCombination)
    (m : Mapping) (hnd : (toTuples m.event_combination).Nodup) :
    saveSkip combos m = true ↔
      (Mapping.is_valid m = false
        ∧ 1 < storedMatchCount combos m.event_combination) := by
  rw [saveSkip, common_length_eq_matchCount hnd]
  cases hv : Mapping.is_valid m <;> simp

/-- Witness for C5 amended at a duplicate-free sole occupant: not
skipped. -/
theorem c5_witness :
    saveSkip [[evA]] ⟨[evA], "", false⟩ = true ↔
      (Mapping.is_valid ⟨[evA], "", false⟩ = false
        ∧ 1 < storedMatchCount [[evA]]
            (Mapping.event_combination ⟨[evA], "", false⟩)) :=
  c5_save_skip_condition [[evA]] ⟨[evA], "", false⟩ (by decide)

/-- In a well-formed dict whose entries are keyed by their mapping's
combination, looking an entry's key up in the rebuilt saved snapshot
finds that entry's own image. -/
theorem find?_map_self {l : MappingDict} (hwf : dictWFB l = true)
    (hkeys : ∀ kv ∈ l, combEq kv.1 kv.2.event_combination = true)
    {kv : EventCombination × Mapping} (hkv : kv ∈ l) :
    (l.map (fun kv2 => (kv2.2.event_combination, kv2.2))).find?
      (fun kv2 => combEq kv2.1 kv.1)
      = some (kv.2.event_combination, kv.2) := by
  induction l with
  | nil => simp at hkv
  | cons hd tl ih =>
    obtain ⟨hhdall, hwftl⟩ := dictWFB_cons.mp hwf
    have hhdkey := hkeys hd (by simp)
    rcases List.mem_cons.mp hkv with rfl | htl
    · rw [List.map_cons, List.find?_cons_of_pos]
      simpa using combEq_symm hhdkey
    · have hne : combEq hd.2.event_combination kv.1 = false := by
        by_contra hc
        rw [Bool.not_eq_false] at hc
        have h2 := combEq_trans hhdkey hc
        have h3 := hhdall kv htl
        rw [h2] at h3
        simp at h3
      rw [List.map_cons, List.find?_cons_of_neg]
      · exact ih hwftl (fun x hx => hkeys x (by simp [hx])) htl
      · simp [hne]

/-- A well-formed dict keyed by its mappings' combinations is
Python-equal to its rebuilt saved snapshot. -/
theorem dictEqPy_map_self {l : MappingDict} (hwf : dictWFB l = true)
    (hkeys : ∀ kv ∈ l, combEq kv.1 kv.2.event_combination = true) :
    dictEqPy l (l.map (fun kv => (kv.2.event_combination, kv.2))) = true := by
  rw [dictEqPy]
  simp only [Bool.and_eq_true]
  constructor
  · simp
  · rw [List.all_eq_true]
    intro kv hkv
    rw [find?_map_self hwf hkeys hkv]
    exact mappingEqPy_refl kv.2

/-- Counterexample for C2: the preset holding one invalid mapping whose
combination repeats an event has a path; save skips that mapping, the
saved snapshot omits it, the preset stays dirty, and a second save
performs the JSON dump again. -/
theorem c2_counterexample :
    (Preset.save pDup).2 = true
    ∧ (Preset.save pDup).1.has_unsaved_changes = true
    ∧ (Preset.save (Preset.save pDup).1).2 = true := by
  decide

/-- C2 amended: for a preset with a path whose index is well-formed, is
keyed by its mappings' combinations, and in which save skips no mapping,
the first save writes exactly when there are unsaved changes, after it
has_unsaved_changes is false, and a second save with no intervening edits
performs no disk write and does not change the state. -/
theorem c2_save_idempotent (p : Preset) (pa : String)
    (hpath : p.path = some pa)
    (hwf : dictWFB p.mappings = true)
    (hkeys : ∀ kv ∈ p.mappings, combEq kv.1 kv.2.event_combination = true)
    (hnoskip : ∀ kv ∈ p.mappings,
      saveSkip (p.mappings.map (fun kv2 => kv2.2.event_combination)) kv.2
        = false) :
    (Preset.save p).2 = p.has_unsaved_changes
    ∧ (Preset.save p).1.has_unsaved_changes = false
    ∧ (Preset.save (Preset.save p).1).2 = false
    ∧ (Preset.save (Preset.save p).1).1 = (Preset.save p).1 := by
  cases hdirty : p.has_unsaved_changes with
  | false =>
    have hsave : Preset.save p = (p, false) := by
      simp [Preset.save, hpath, hdirty]
    refine ⟨?_, ?_, ?_, ?_⟩ <;> simp [hsave, hdirty]
  | true =>
    have hkept : p.mappings.filter
        (fun kv => !(saveSkip
          (p.mappings.map (fun kv2 => kv2.2.event_combination)) kv.2))
        = p.mappings := by
      rw [List.filter_eq_self]
      intro kv hkv
      simp [hnoskip kv hkv]
    have hsave : Preset.save p
        = ({ p with saved_mappings :=
            p.mappings.map (fun kv => (kv.2.event_combination, kv.2)) },
          true) := by
      simp [Preset.save, hpath, hdirty, hkept]
    have hclean : (Preset.save p).1.has_unsaved_changes = false := by
      rw [hsave, Preset.has_unsaved_changes]
      simp only []
      rw [dictEqPy_map_self hwf hkeys]
      rfl
    have hpath2 : (Preset.save p).1.path = some pa := by
      rw [hsave]
      exact hpath
    have hgen : ∀ q : Preset, q.path = some pa →
        q.has_unsaved_changes = false → Preset.save q = (q, false) := by
      intro q hq1 hq2
      simp [Preset.save, hq1, hq2]
    have hsave2 := hgen (Preset.save p).1 hpath2 hclean
    refine ⟨?_, hclean, ?_, ?_⟩
    · rw [hsave]
    · rw [hsave2]
    · rw [hsave2]

/-- Witness for C2 amended on a clean one-mapping preset with a path. -/
theorem c2_witness :
    (Preset.save pWS).2 = pWS.has_unsaved_changes
    ∧ (Preset.save pWS).1.has_unsaved_changes = false
    ∧ (Preset.save (Preset.save pWS).1).2 = false
    ∧ (Preset.save (Preset.save pWS).1).1 = (Preset.save pWS).1 :=
  c2_save_idempotent pWS "preset.json" rfl (by decide) (by decide)
    (by decide)
